import Mathlib

/-!
Verification development for the `ampu` build tool of the asthra repository.

Each definition is a shallow embedding of the corresponding Rust item,
translated from the source files under `src/ampu/src/`.  Machine integers
of the source are modelled as `Nat` (no arithmetic in the embedded code
overflows), `HashMap`s as association lists or as explicit functions over
the finite key set actually used, fallible code as `Except`/`Option`, and
filesystem or process effects as explicit data (lists of performed actions,
boolean oracles for existence tests).
-/

namespace Ampu

/-- `config::PackageType` — the kind of the importing package. -/
inductive PackageType where
  | userCode
  | stdlib
  | internal
  | thirdParty
deriving DecidableEq, Repr

/-- `resolver::ImportType` — a classified import together with its path. -/
inductive ImportType where
  | stdlib (path : String)
  | internal (path : String)
  | thirdParty (path : String)
  | local' (path : String)
deriving DecidableEq, Repr

/-- `error::AccessViolation`. -/
inductive AccessViolation where
  | userToInternal (package : String)
  | thirdPartyToInternal (package : String)
deriving DecidableEq, Repr

/-- `error::ImportError` — a violation with its reported location. -/
structure ImportError where
  file : String
  line : Nat
  column : Nat
  violation : AccessViolation
deriving DecidableEq, Repr

/-- `config::Target`. -/
inductive Target where
  | native
  | x86_64
  | arm64
  | wasm32
deriving DecidableEq, Repr

/-- `config::OptimizationLevel`. -/
inductive OptimizationLevel where
  | none'
  | basic
  | standard
  | aggressive
deriving DecidableEq, Repr

/-- `storage::LibraryType`. -/
inductive LibraryType where
  | static
  | dynamic
  | object
deriving DecidableEq, Repr

/-- A semantic version triple (`semver::Version`; prerelease and build
metadata do not occur in any verified operation and are omitted). -/
structure SemVer where
  major : Nat
  minor : Nat
  patch : Nat
deriving DecidableEq, Repr

/-- Host operating system, standing for the `#[cfg(...)]` conditions of
`storage::LibraryArtifact::generate_filename`. -/
inductive HostOS where
  | linux
  | macos
  | windows
deriving DecidableEq, Repr

/-- `storage::LibraryArtifact`.  Paths are modelled as strings. -/
structure LibraryArtifact where
  name : String
  version : SemVer
  library_type : LibraryType
  file_path : String
  dependencies : List String
deriving DecidableEq, Repr

/-- `storage::BuildDirectories` — the directory fields used by the verified
functions, as plain strings. -/
structure BuildDirectories where
  project_root : String
  target_dir : String
  profile_dir : String
  deps_dir : String
  build_dir : String
  external_dir : String
  cache_dir : String
deriving DecidableEq, Repr

/-- `config::PackageInfo`.  The dependency map `HashMap<String, VersionReq>`
is modelled as an association list; the requirement values are never
inspected by the verified functions and are kept as opaque strings. -/
structure PackageInfo where
  name : String
  version : SemVer
  dependencies : List (String × String)
  source_files : List String
  main_file : String
  output_path : String
  checksum : String
deriving DecidableEq, Repr

/-- `compiler::BuildConfig` — the fields read by the verified functions. -/
structure BuildConfig where
  target : Target
  optimization : OptimizationLevel
  debug_info : Bool
  parallel_jobs : Nat
  build_directories : BuildDirectories
  library_type : LibraryType
deriving DecidableEq, Repr

/-! ## Access control (`resolver/access_control.rs`) -/

namespace AccessController

/-- `AccessController::validate_import` (access_control.rs lines 9-42),
transcribed case by case. -/
def validate_import (importingPackage : PackageType) (importedPackage : ImportType) :
    Except AccessViolation Unit :=
  match importingPackage, importedPackage with
  | .userCode, .stdlib _ => .ok ()
  | .userCode, .thirdParty _ => .ok ()
  | .userCode, .local' _ => .ok ()
  | .stdlib, .stdlib _ => .ok ()
  | .stdlib, .internal _ => .ok ()
  | .stdlib, .thirdParty _ => .ok ()
  | .stdlib, .local' _ => .ok ()
  | .internal, .stdlib _ => .ok ()
  | .internal, .internal _ => .ok ()
  | .internal, .thirdParty _ => .ok ()
  | .internal, .local' _ => .ok ()
  | .thirdParty, .stdlib _ => .ok ()
  | .thirdParty, .thirdParty _ => .ok ()
  | .thirdParty, .local' _ => .ok ()
  | .userCode, .internal package => .error (.userToInternal package)
  | .thirdParty, .internal package => .error (.thirdPartyToInternal package)

/-- `AccessController::validate_imports_with_locations` (access_control.rs
lines 65-89): for each file, enumerate its parsed imports and report each
violation with `line = index + 1`. -/
def validate_imports_with_locations
    (fileImports : List (String × PackageType × List ImportType)) :
    Except (List ImportError) Unit :=
  let errors := fileImports.flatMap fun fi =>
    (fi.2.2.enum).filterMap fun li =>
      match validate_import fi.2.1 li.2 with
      | .ok _ => none
      | .error violation =>
          some { file := fi.1, line := li.1 + 1, column := 1, violation := violation }
  if errors.isEmpty then .ok () else .error errors

end AccessController

/-! ## Library artifacts (`storage/mod.rs`) -/

/-- The name sanitisation of `LibraryArtifact::generate_filename`
(storage/mod.rs line 26): `name.replace("/", "_").replace("-", "_")`.
For one-character patterns `String::replace` is a character map, applied
here in the same two passes as the source. -/
def sanitizeName (name : String) : String :=
  String.mk (((name.data.map fun c => if c = '/' then '_' else c).map
    fun c => if c = '-' then '_' else c))

/-- `LibraryArtifact::generate_filename` (storage/mod.rs lines 25-49), with
the `#[cfg]` selection made explicit via `HostOS`. -/
def LibraryArtifact.generate_filename (a : LibraryArtifact) (os : HostOS) : String :=
  let sanitized_name := sanitizeName a.name
  match a.library_type with
  | .static =>
      match os with
      | .windows => sanitized_name ++ ".lib"
      | _ => "lib" ++ sanitized_name ++ ".a"
  | .dynamic =>
      match os with
      | .linux => "lib" ++ sanitized_name ++ ".so"
      | .macos => "lib" ++ sanitized_name ++ ".dylib"
      | .windows => sanitized_name ++ ".dll"
  | .object =>
      match os with
      | .windows => sanitized_name ++ ".obj"
      | _ => sanitized_name ++ ".o"

end Ampu

namespace Ampu

/-! ## Theorems -/

/-- C1: `validate_import` rejects exactly the two forbidden edges
UserCode → Internal and ThirdParty → Internal (with the violation naming the
imported package) and returns success for the other fourteen
(importer-kind, import-kind) combinations. -/
theorem validate_import_access_matrix :
    ∀ (pt : PackageType) (it : ImportType),
      ((∃ v, AccessController.validate_import pt it = .error v) ↔
        ((pt = .userCode ∨ pt = .thirdParty) ∧ ∃ p, it = .internal p)) ∧
      (∀ p, AccessController.validate_import .userCode (.internal p) =
        .error (.userToInternal p)) ∧
      (∀ p, AccessController.validate_import .thirdParty (.internal p) =
        .error (.thirdPartyToInternal p)) := by
  intro pt it
  refine ⟨?_, fun p => rfl, fun p => rfl⟩
  cases pt <;> cases it <;>
    simp [AccessController.validate_import]

/-- C9 counterexample: the claim asserts
`library_filename("github.com/u/r", Static, Linux) = "libgithub_com_u_r.a"`,
but sanitisation replaces only `/` and `-`, so the dot of the host survives
and the generated filename is `"libgithub.com_u_r.a"`. -/
theorem generate_filename_dot_counterexample :
    LibraryArtifact.generate_filename
        { name := "github.com/u/r", version := ⟨1, 0, 0⟩, library_type := .static,
          file_path := "", dependencies := [] } .linux ≠ "libgithub_com_u_r.a" := by
  decide

/-- C9 (amended): filename generation first sanitises the name by replacing
every `/` and `-` with `_` (all other characters, dots included, are kept),
then applies the kind- and OS-specific pattern; on Linux Static yields
`lib<n>.a`, Dynamic `lib<n>.so`, Object `<n>.o`; in particular
`library_filename("a/b-c", Static, Linux) = "liba_b_c.a"` and
`library_filename("github.com/u/r", Static, Linux) = "libgithub.com_u_r.a"`. -/
theorem generate_filename_spec :
    (∀ name : String, (sanitizeName name).data =
      name.data.map fun c => if c = '/' ∨ c = '-' then '_' else c) ∧
    (∀ name v fp deps,
      LibraryArtifact.generate_filename
          { name := name, version := v, library_type := .static,
            file_path := fp, dependencies := deps } .linux =
        "lib" ++ sanitizeName name ++ ".a" ∧
      LibraryArtifact.generate_filename
          { name := name, version := v, library_type := .dynamic,
            file_path := fp, dependencies := deps } .linux =
        "lib" ++ sanitizeName name ++ ".so" ∧
      LibraryArtifact.generate_filename
          { name := name, version := v, library_type := .object,
            file_path := fp, dependencies := deps } .linux =
        sanitizeName name ++ ".o") ∧
    LibraryArtifact.generate_filename
        { name := "a/b-c", version := ⟨1, 0, 0⟩, library_type := .static,
          file_path := "", dependencies := [] } .linux = "liba_b_c.a" ∧
    LibraryArtifact.generate_filename
        { name := "github.com/u/r", version := ⟨1, 0, 0⟩, library_type := .static,
          file_path := "", dependencies := [] } .linux = "libgithub.com_u_r.a" := by
  refine ⟨fun name => ?_, fun name v fp deps => ⟨rfl, rfl, rfl⟩, by decide, by decide⟩
  simp only [sanitizeName, List.map_map]
  apply List.map_congr_left
  intro c _
  by_cases h1 : c = '/' <;> by_cases h2 : c = '-' <;>
    simp [h1, h2, Function.comp]

/-! ## Compiler invocation (`compiler/asthra_compiler.rs`, `compiler/mod.rs`) -/

/-- Prefix test on strings (`str::starts_with`), via the character lists. -/
def strStartsWith (s p : String) : Bool :=
  p.data.isPrefixOf s.data

/-- `asthra_compiler::CompilerInvocation` (paths as strings, `OsString`
arguments as strings). -/
structure CompilerInvocation where
  source_files : List String
  import_paths : List String
  output_path : String
  target : Target
  optimization : OptimizationLevel
  additional_args : List String
deriving DecidableEq, Repr

/-- The target `match` of `AsthraCCompilerInterface::compile`
(asthra_compiler.rs lines 55-66): `--target <arch>` as two arguments,
nothing for Native. -/
def targetArgsProc : Target → List String
  | .native => []
  | .x86_64 => ["--target", "x86_64"]
  | .arm64 => ["--target", "arm64"]
  | .wasm32 => ["--target", "wasm32"]

/-- The optimisation `match` of `AsthraCCompilerInterface::compile`
(asthra_compiler.rs lines 69-74). -/
def optFlagProc : OptimizationLevel → String
  | .none' => "-O0"
  | .basic => "-O1"
  | .standard => "-O2"
  | .aggressive => "-O3"

/-- The full argument list assembled by `AsthraCCompilerInterface::compile`
(asthra_compiler.rs lines 39-78): source files, `-o <out>`, `-I <dir>`
pairs, the target flag, the optimisation flag, then the additional
arguments. -/
def compiler_argv (inv : CompilerInvocation) : List String :=
  inv.source_files ++ ["-o", inv.output_path] ++
    (inv.import_paths.flatMap fun p => ["-I", p]) ++
    targetArgsProc inv.target ++ [optFlagProc inv.optimization] ++
    inv.additional_args

/-- The optimisation `match` of `build_additional_compiler_args`
(compiler/mod.rs lines 535-540): note Basic and Standard both map to
`--opt=1`. -/
def optEqArg : OptimizationLevel → String
  | .none' => "--opt=0"
  | .basic => "--opt=1"
  | .standard => "--opt=1"
  | .aggressive => "--opt=2"

/-- The target `match` of `build_additional_compiler_args`
(compiler/mod.rs lines 543-548). -/
def targetEqArgs : Target → List String
  | .native => []
  | .x86_64 => ["--target=x86_64"]
  | .arm64 => ["--target=arm64"]
  | .wasm32 => ["--target=wasm32"]

/-- The library-type `match` of `build_additional_compiler_args`
(compiler/mod.rs lines 551-555). -/
def libTypeArg : LibraryType → String
  | .static => "--library-type=static"
  | .dynamic => "--library-type=dynamic"
  | .object => "--library-type=object"

/-- `BuildOrchestrator::build_additional_compiler_args`
(compiler/mod.rs lines 526-563). -/
def build_additional_compiler_args (config : BuildConfig) (package : PackageInfo) :
    List String :=
  (if config.debug_info then ["--debug"] else []) ++
    [optEqArg config.optimization] ++
    targetEqArgs config.target ++
    [libTypeArg config.library_type] ++
    (if strStartsWith package.name "stdlib/" then ["--stdlib-mode"] else [])

/-- The compiler argument list for one package, as assembled by
`BuildOrchestrator::compile_package` (compiler/mod.rs lines 440-447)
feeding `AsthraCCompilerInterface::compile`. -/
def package_compiler_argv (config : BuildConfig) (package : PackageInfo)
    (import_paths : List String) : List String :=
  compiler_argv
    { source_files := package.source_files
      import_paths := import_paths
      output_path := package.output_path
      target := config.target
      optimization := config.optimization
      additional_args := build_additional_compiler_args config package }

/-- The four `-O` optimisation flags named by the specification. -/
def optFlagStrings : List String := ["-O0", "-O1", "-O2", "-O3"]

/-- The three `--library-type=` flags. -/
def libTypeFlagStrings : List String :=
  ["--library-type=static", "--library-type=dynamic", "--library-type=object"]

/-- All flag strings whose occurrence the C7 theorem counts; path-valued
arguments are assumed distinct from these. -/
def sensitiveFlagStrings : List String :=
  optFlagStrings ++ libTypeFlagStrings ++ ["--debug", "--stdlib-mode"]

/-! ## Library artifact creation (`compiler/mod.rs`) -/

/-- Split a character list at every `/`. -/
def splitOnSlash : List Char → List (List Char)
  | [] => [[]]
  | c :: rest =>
      match splitOnSlash rest, decide (c = '/') with
      | r, true => [] :: r
      | [], false => [[c]]
      | h :: t, false => (c :: h) :: t

/-- Model of `std::path::Path::file_name` for ordinary slash-separated
paths: the last nonempty component. -/
def fileNameOf (path : String) : Option String :=
  (((splitOnSlash path.data).map fun l => String.mk l).filter fun c => c ≠ "").getLast?

/-- `BuildOrchestrator::create_library_artifact` (compiler/mod.rs lines
565-589; the static variant at lines 752-773 is identical with `config`
passed explicitly).  The filesystem is abstracted: `outputExists` stands
for `package.output_path.exists()` and the returned list records the
`(source, destination)` file copies performed. -/
def create_library_artifact (config : BuildConfig) (package : PackageInfo)
    (outputExists : Bool) (os : HostOS) :
    Option LibraryArtifact × List (String × String) :=
  if package.name = "main" ∨ fileNameOf package.main_file = some "main.asthra" then
    (none, [])
  else
    let artifact : LibraryArtifact :=
      { name := package.name
        version := package.version
        library_type := config.library_type
        file_path := package.output_path
        dependencies := package.dependencies.map Prod.fst }
    let artifact_path :=
      config.build_directories.deps_dir ++ "/" ++ artifact.generate_filename os
    (some artifact, if outputExists then [(package.output_path, artifact_path)] else [])

/-- The `-I <dir>` pairs contribute nothing to a flag filter whose predicate
rejects `-I` and every path. -/
theorem filter_dash_I_pairs (ps : List String) (p : String → Bool)
    (h1 : p "-I" = false) (h2 : ∀ x ∈ ps, p x = false) :
    (ps.flatMap fun x => ["-I", x]).filter p = [] := by
  induction ps with
  | nil => rfl
  | cons a as ih =>
      simp only [List.flatMap_cons, List.filter_append, List.filter_cons, h1,
        h2 a (by simp), List.filter_nil, List.nil_append]
      exact ih fun x hx => h2 x (by simp [hx])

/-- C7: in the compiler argument list of a package, there is exactly one
optimisation flag among -O0, -O1, -O2, -O3 (the one chosen by the
optimisation-level mapping of `AsthraCCompilerInterface::compile`),
`--debug` occurs iff debug-info is on, exactly one `--library-type=` flag
occurs (matching the configured library kind), and `--stdlib-mode` occurs
iff the package name begins with `stdlib/`.  Path-valued arguments are
assumed distinct from the flag strings. -/
theorem package_compiler_argv_flags
    (config : BuildConfig) (package : PackageInfo) (import_paths : List String)
    (hclean : ∀ s ∈ package.source_files ++ import_paths ++ [package.output_path],
        s ∉ sensitiveFlagStrings) :
    (package_compiler_argv config package import_paths).filter
        (fun a => decide (a ∈ optFlagStrings)) = [optFlagProc config.optimization] ∧
    ("--debug" ∈ package_compiler_argv config package import_paths ↔
      config.debug_info = true) ∧
    (package_compiler_argv config package import_paths).filter
        (fun a => decide (a ∈ libTypeFlagStrings)) = [libTypeArg config.library_type] ∧
    ("--stdlib-mode" ∈ package_compiler_argv config package import_paths ↔
      strStartsWith package.name "stdlib/" = true) := by
  have hS : ∀ s ∈ package.source_files, s ∉ sensitiveFlagStrings := by
    intro s hs; exact hclean s (by simp [hs])
  have hI : ∀ s ∈ import_paths, s ∉ sensitiveFlagStrings := by
    intro s hs; exact hclean s (by simp [hs])
  have hO : package.output_path ∉ sensitiveFlagStrings := hclean _ (by simp)
  have hOpt : ∀ s : String, s ∉ sensitiveFlagStrings → ¬ s ∈ optFlagStrings := by
    intro s h hmem; exact h (by simp [sensitiveFlagStrings, hmem])
  have hLib : ∀ s : String, s ∉ sensitiveFlagStrings → ¬ s ∈ libTypeFlagStrings := by
    intro s h hmem; exact h (by simp [sensitiveFlagStrings, hmem])
  have hDbg : ∀ s : String, s ∉ sensitiveFlagStrings → s ≠ "--debug" := by
    intro s h hmem; exact h (by simp [sensitiveFlagStrings, hmem])
  have hStd : ∀ s : String, s ∉ sensitiveFlagStrings → s ≠ "--stdlib-mode" := by
    intro s h hmem; exact h (by simp [sensitiveFlagStrings, hmem])
  refine ⟨?_, ?_, ?_, ?_⟩
  · -- exactly one -O flag
    have hfo : List.filter (fun a => decide (a ∈ optFlagStrings))
        ["-o", package.output_path] = [] := by
      rw [List.filter_eq_nil_iff]
      intro a ha
      rcases List.mem_cons.mp ha with rfl | ha'
      · decide
      · simp only [List.mem_singleton] at ha'
        subst ha'
        simpa using hOpt _ hO
    simp only [package_compiler_argv, compiler_argv, build_additional_compiler_args,
      List.append_assoc, List.filter_append]
    rw [List.filter_eq_nil_iff.mpr (by
          intro a ha; simpa using hOpt a (hS a ha)),
        filter_dash_I_pairs _ _ (by decide) (fun x hx => by
          simpa using hOpt x (hI x hx)),
        hfo]
    cases config.optimization <;> cases config.target <;>
      cases config.debug_info <;> cases config.library_type <;>
        cases hsw : strStartsWith package.name "stdlib/" <;>
          decide
  · -- --debug iff debug_info
    simp only [package_compiler_argv, compiler_argv, build_additional_compiler_args,
      List.append_assoc, List.mem_append]
    have h1 : ¬ "--debug" ∈ package.source_files := fun h => hDbg _ (hS _ h) rfl
    have h2 : ¬ "--debug" ∈ ["-o", package.output_path] := by
      intro h
      rcases List.mem_cons.mp h with h' | h'
      · exact absurd h'.symm (by decide)
      · simp only [List.mem_singleton] at h'
        exact hDbg _ hO h'.symm
    have h3 : ¬ "--debug" ∈ (import_paths.flatMap fun p => ["-I", p]) := by
      intro h
      rcases List.mem_flatMap.mp h with ⟨x, hx, hmem⟩
      rcases List.mem_cons.mp hmem with h' | h'
      · exact absurd h'.symm (by decide)
      · simp only [List.mem_singleton] at h'
        exact hDbg _ (hI x hx) h'.symm
    cases config.debug_info <;> cases config.optimization <;> cases config.target <;>
      cases config.library_type <;> cases hsw : strStartsWith package.name "stdlib/" <;>
        simp [targetArgsProc, optFlagProc, optEqArg, targetEqArgs, libTypeArg, hsw,
          h1, h2, h3]
  · -- exactly one --library-type flag
    have hfl : List.filter (fun a => decide (a ∈ libTypeFlagStrings))
        ["-o", package.output_path] = [] := by
      rw [List.filter_eq_nil_iff]
      intro a ha
      rcases List.mem_cons.mp ha with rfl | ha'
      · decide
      · simp only [List.mem_singleton] at ha'
        subst ha'
        simpa using hLib _ hO
    simp only [package_compiler_argv, compiler_argv, build_additional_compiler_args,
      List.append_assoc, List.filter_append]
    rw [List.filter_eq_nil_iff.mpr (by
          intro a ha; simpa using hLib a (hS a ha)),
        filter_dash_I_pairs _ _ (by decide) (fun x hx => by
          simpa using hLib x (hI x hx)),
        hfl]
    cases config.optimization <;> cases config.target <;>
      cases config.debug_info <;> cases config.library_type <;>
        cases hsw : strStartsWith package.name "stdlib/" <;>
          decide
  · -- --stdlib-mode iff stdlib/ name
    simp only [package_compiler_argv, compiler_argv, build_additional_compiler_args,
      List.append_assoc, List.mem_append]
    have h1 : ¬ "--stdlib-mode" ∈ package.source_files := fun h => hStd _ (hS _ h) rfl
    have h2 : ¬ "--stdlib-mode" ∈ ["-o", package.output_path] := by
      intro h
      rcases List.mem_cons.mp h with h' | h'
      · exact absurd h'.symm (by decide)
      · simp only [List.mem_singleton] at h'
        exact hStd _ hO h'.symm
    have h3 : ¬ "--stdlib-mode" ∈ (import_paths.flatMap fun p => ["-I", p]) := by
      intro h
      rcases List.mem_flatMap.mp h with ⟨x, hx, hmem⟩
      rcases List.mem_cons.mp hmem with h' | h'
      · exact absurd h'.symm (by decide)
      · simp only [List.mem_singleton] at h'
        exact hStd _ (hI x hx) h'.symm
    cases config.debug_info <;> cases config.optimization <;> cases config.target <;>
      cases config.library_type <;> cases hsw : strStartsWith package.name "stdlib/" <;>
        simp [targetArgsProc, optFlagProc, optEqArg, targetEqArgs, libTypeArg, hsw,
          h1, h2, h3]

/-- A concrete directory layout used by witness theorems. -/
def sampleDirs : BuildDirectories :=
  { project_root := "p"
    target_dir := "p/target"
    profile_dir := "p/target/debug"
    deps_dir := "p/target/debug/deps"
    build_dir := "p/target/debug/build"
    external_dir := "p/target/debug/deps/external"
    cache_dir := "p/target/cache" }

/-- A concrete debug build configuration used by witness theorems. -/
def sampleConfig : BuildConfig :=
  { target := .native
    optimization := .standard
    debug_info := true
    parallel_jobs := 4
    build_directories := sampleDirs
    library_type := .static }

/-- A concrete stdlib package used by witness theorems. -/
def sampleStdlibPackage : PackageInfo :=
  { name := "stdlib/string"
    version := ⟨1, 0, 0⟩
    dependencies := []
    source_files := ["src/lib.asthra"]
    main_file := "src/lib.asthra"
    output_path := "out/lib.o"
    checksum := "c" }

/-- A concrete library package used by witness theorems. -/
def sampleLibPackage : PackageInfo :=
  { name := "mylib"
    version := ⟨1, 2, 3⟩
    dependencies := [("stdlib/string", "1")]
    source_files := ["src/lib.asthra"]
    main_file := "src/lib.asthra"
    output_path := "out/mylib.o"
    checksum := "c" }

/-- C7 witness: the flag properties instantiated at a concrete debug
configuration and stdlib package, with the hypothesis on path-valued
arguments discharged by computation. -/
theorem package_compiler_argv_flags_witness :
    (package_compiler_argv sampleConfig sampleStdlibPackage ["p/stdlib"]).filter
        (fun a => decide (a ∈ optFlagStrings)) = ["-O2"] ∧
    "--stdlib-mode" ∈ package_compiler_argv sampleConfig sampleStdlibPackage ["p/stdlib"] := by
  have h := package_compiler_argv_flags sampleConfig sampleStdlibPackage ["p/stdlib"]
    (by decide)
  exact ⟨h.1, h.2.2.2.mpr (by decide)⟩

/-- C10: after a successful compilation (the output file exists),
`create_library_artifact` returns no artifact and performs no copy exactly
when the package is named `main` or its entry file is `main.asthra`; for
every other package it returns an artifact carrying the package's name,
version and dependency names, and copies the output into the deps
directory under the generated filename. -/
theorem create_library_artifact_spec
    (config : BuildConfig) (package : PackageInfo) (os : HostOS)
    (outputExists : Bool) (hout : outputExists = true) :
    ((create_library_artifact config package outputExists os).1 = none ↔
      (package.name = "main" ∨ fileNameOf package.main_file = some "main.asthra")) ∧
    ((create_library_artifact config package outputExists os).2 = [] ↔
      (create_library_artifact config package outputExists os).1 = none) ∧
    (∀ a, (create_library_artifact config package outputExists os).1 = some a →
      a.name = package.name ∧ a.version = package.version ∧
      a.dependencies = package.dependencies.map Prod.fst ∧
      (create_library_artifact config package outputExists os).2 =
        [(package.output_path,
          config.build_directories.deps_dir ++ "/" ++ a.generate_filename os)]) := by
  subst hout
  by_cases h : package.name = "main" ∨ fileNameOf package.main_file = some "main.asthra" <;>
    simp [create_library_artifact, h]

/-- C10 witness: a concrete library package with an existing output file
yields an artifact. -/
theorem create_library_artifact_spec_witness :
    ¬ (create_library_artifact sampleConfig sampleLibPackage true .linux).1 = none := by
  intro hn
  have h := create_library_artifact_spec sampleConfig sampleLibPackage .linux true rfl
  exact absurd (h.1.mp hn) (by decide)

/-! ## Dependency resolution (`downloader/mod.rs`) -/

/-- `resolver::DependencyNode`, polymorphic in the version-requirement type
`Req` (the resolver only applies `VersionReq::matches` to requirements). -/
structure DependencyNode (Req : Type) where
  import_path : String
  version : SemVer
  dependencies : List (String × Req)
deriving DecidableEq, Repr

/-- Outcome of `DependencyResolver::resolve_dependencies`: the resolved map,
a `BuildError::VersionConflict` (whose fields the source stringifies at
construction; the payloads are kept as values here), a propagated download
error of type `E`, or fuel exhaustion (the Rust `while` loop has no fuel;
`outOfFuel` marks runs longer than the given bound and is never treated as
success). -/
inductive ResolveOutcome (Req E : Type) where
  | ok (packages : List (String × DependencyNode Req))
  | versionConflict (package : String) (required : Req) (existing : SemVer)
      (dependent : Option String)
  | fetchFailed (e : E)
  | outOfFuel
deriving DecidableEq, Repr

/-- `HashMap::get` on the resolved map, modelled over the association list
(keys are inserted at most once, so lookup order is immaterial). -/
def lookupNode {Req : Type} (resolved : List (String × DependencyNode Req))
    (p : String) : Option (DependencyNode Req) :=
  (resolved.find? fun pr => pr.1 = p).map Prod.snd

/-- The `while let Some(...) = to_resolve.pop_front()` loop of
`DependencyResolver::resolve_dependencies` (downloader/mod.rs lines
300-333).  `vmatches` stands for `VersionReq::matches` and `fetch` for
`PackageDownloader::download_package` (returning the fetched package's
version and dependency map, the only fields the loop reads). -/
def resolveLoop {Req E : Type} (vmatches : Req → SemVer → Bool)
    (fetch : String → Req → Except E (SemVer × List (String × Req))) :
    Nat → List (String × Req × Option String) →
    List (String × DependencyNode Req) → ResolveOutcome Req E
  | _, [], resolved => .ok resolved
  | 0, _ :: _, _ => .outOfFuel
  | fuel + 1, (import_path, version_req, dependent) :: rest, resolved =>
    match lookupNode resolved import_path with
    | some existing =>
        if vmatches version_req existing.version then
          resolveLoop vmatches fetch fuel rest resolved
        else
          .versionConflict import_path version_req existing.version dependent
    | none =>
        match fetch import_path version_req with
        | .error e => .fetchFailed e
        | .ok pr =>
            resolveLoop vmatches fetch fuel
              (rest ++ pr.2.map fun dp => (dp.1, dp.2, some import_path))
              ((import_path, ⟨import_path, pr.1, pr.2⟩) :: resolved)

/-- `DependencyResolver::resolve_dependencies` (downloader/mod.rs lines
287-336): seed the queue with the root requirements (`dependent = None`)
and run the loop on an empty resolved map. -/
def resolve_dependencies {Req E : Type} (vmatches : Req → SemVer → Bool)
    (fetch : String → Req → Except E (SemVer × List (String × Req)))
    (fuel : Nat) (roots : List (String × Req)) : ResolveOutcome Req E :=
  resolveLoop vmatches fetch fuel (roots.map fun r => (r.1, r.2, none)) []

/-- C5: when the loop dequeues a requirement whose import path is already
resolved at version `v`, it continues with the resolved map unchanged if
the requirement accepts `v`, and otherwise fails with a version conflict
carrying the import path, the new requirement, the existing version and
the requester. -/
theorem resolve_step_version_check {Req E : Type}
    (vmatches : Req → SemVer → Bool)
    (fetch : String → Req → Except E (SemVer × List (String × Req)))
    (fuel : Nat) (rest : List (String × Req × Option String))
    (resolved : List (String × DependencyNode Req))
    (p : String) (r : Req) (d : Option String) (node : DependencyNode Req)
    (hfound : lookupNode resolved p = some node) :
    (vmatches r node.version = true →
      resolveLoop vmatches fetch (fuel + 1) ((p, r, d) :: rest) resolved =
        resolveLoop vmatches fetch fuel rest resolved) ∧
    (vmatches r node.version = false →
      resolveLoop vmatches fetch (fuel + 1) ((p, r, d) :: rest) resolved =
        .versionConflict p r node.version d) := by
  constructor <;> intro hm <;> simp [resolveLoop, hfound, hm]

/-- C5 witness: a concrete dequeue step against an already-resolved package,
in both the compatible and the conflicting direction. -/
theorem resolve_step_version_check_witness :
    (@resolveLoop Bool Unit (fun q _ => q) (fun _ _ => .error ()) 4
        [("a", false, some "b")] [("a", ⟨"a", ⟨1, 0, 0⟩, []⟩)] =
      .versionConflict "a" false ⟨1, 0, 0⟩ (some "b")) ∧
    (@resolveLoop Bool Unit (fun q _ => q) (fun _ _ => .error ()) 4
        [("a", true, some "b")] [("a", ⟨"a", ⟨1, 0, 0⟩, []⟩)] =
      .ok [("a", ⟨"a", ⟨1, 0, 0⟩, []⟩)]) := by
  have h1 := @resolve_step_version_check Bool Unit
    (fun q _ => q) (fun _ _ => .error ()) 3 [] [("a", ⟨"a", ⟨1, 0, 0⟩, []⟩)]
    "a" false (some "b") ⟨"a", ⟨1, 0, 0⟩, []⟩ rfl
  have h2 := @resolve_step_version_check Bool Unit
    (fun q _ => q) (fun _ _ => .error ()) 3 [] [("a", ⟨"a", ⟨1, 0, 0⟩, []⟩)]
    "a" true (some "b") ⟨"a", ⟨1, 0, 0⟩, []⟩ rfl
  exact ⟨h1.2 rfl, (h2.1 rfl).trans rfl⟩

/-- Loop invariant for C6: every dependency key of an already-resolved node
is either itself resolved or still queued; on success the queue is empty,
so the final graph is closed under the dependency relation. -/
theorem resolveLoop_closed {Req E : Type}
    (vmatches : Req → SemVer → Bool)
    (fetch : String → Req → Except E (SemVer × List (String × Req))) :
    ∀ (fuel : Nat) (queue : List (String × Req × Option String))
      (resolved g : List (String × DependencyNode Req)),
      (∀ pr ∈ resolved, ∀ dp ∈ pr.2.dependencies,
        dp.1 ∈ resolved.map Prod.fst ∨ dp.1 ∈ queue.map fun it => it.1) →
      resolveLoop vmatches fetch fuel queue resolved = .ok g →
      ∀ pr ∈ g, ∀ dp ∈ pr.2.dependencies, dp.1 ∈ g.map Prod.fst := by
  intro fuel
  induction fuel with
  | zero =>
      intro queue resolved g hinv hrun
      cases queue with
      | nil =>
          simp only [resolveLoop] at hrun
          cases hrun
          intro pr hpr dp hdp
          rcases hinv pr hpr dp hdp with h | h
          · exact h
          · simp at h
      | cons q qs => simp [resolveLoop] at hrun
  | succ fuel ih =>
      intro queue resolved g hinv hrun
      cases queue with
      | nil =>
          simp only [resolveLoop] at hrun
          cases hrun
          intro pr hpr dp hdp
          rcases hinv pr hpr dp hdp with h | h
          · exact h
          · simp at h
      | cons item rest =>
          obtain ⟨p, r, d⟩ := item
          simp only [resolveLoop] at hrun
          cases hlook : lookupNode resolved p with
          | some existing =>
              simp only [hlook] at hrun
              by_cases hm : vmatches r existing.version = true
              · rw [if_pos hm] at hrun
                refine ih rest resolved g ?_ hrun
                intro pr hpr dp hdp
                rcases hinv pr hpr dp hdp with h | h
                · exact Or.inl h
                · have h2 : dp.1 = p ∨ ∃ a b, (dp.1, a, b) ∈ rest := by simpa using h
                  rcases h2 with h' | ⟨a, b, h'⟩
                  · left
                    have hmem := List.mem_of_find?_eq_some
                      (Option.map_eq_some'.mp hlook).choose_spec.1
                    have hkey : (Option.map_eq_some'.mp hlook).choose.1 = p := by
                      have := List.find?_some
                        (Option.map_eq_some'.mp hlook).choose_spec.1
                      simpa using this
                    subst h'
                    rw [← hkey]
                    exact List.mem_map_of_mem Prod.fst hmem
                  · right
                    exact List.mem_map.mpr ⟨(dp.1, a, b), h', rfl⟩
              · rw [if_neg hm] at hrun
                cases hrun
          | none =>
              simp only [hlook] at hrun
              cases hfetch : fetch p r with
              | error e =>
                  simp only [hfetch] at hrun
                  cases hrun
              | ok pr' =>
                  simp only [hfetch] at hrun
                  refine ih _ _ g ?_ hrun
                  intro node hnode dp hdp
                  rcases List.mem_cons.mp hnode with h' | h'
                  · subst h'
                    simp only [List.map_append, List.map_map, List.mem_append] at hdp ⊢
                    right
                    right
                    simp only [List.map_map, List.mem_map, Function.comp]
                    exact ⟨dp, hdp, rfl⟩
                  · rcases hinv node h' dp hdp with h | h
                    · exact Or.inl (by simp [h])
                    · have h2 : dp.1 = p ∨ ∃ a b, (dp.1, a, b) ∈ rest := by simpa using h
                      rcases h2 with hh | ⟨a, b, hh⟩
                      · subst hh
                        left
                        simp
                      · right
                        simp only [List.map_append, List.mem_append]
                        left
                        exact List.mem_map.mpr ⟨(dp.1, a, b), hh, rfl⟩

/-- C6: whenever `resolve_dependencies` succeeds, every import path that
occurs as a key in some resolved package's dependency map is itself a key
of the resolved graph. -/
theorem resolve_dependencies_closed {Req E : Type}
    (vmatches : Req → SemVer → Bool)
    (fetch : String → Req → Except E (SemVer × List (String × Req)))
    (fuel : Nat) (roots : List (String × Req))
    (g : List (String × DependencyNode Req))
    (hok : resolve_dependencies vmatches fetch fuel roots = .ok g) :
    ∀ pr ∈ g, ∀ dp ∈ pr.2.dependencies, dp.1 ∈ g.map Prod.fst := by
  refine resolveLoop_closed vmatches fetch fuel _ [] g ?_ hok
  intro pr hpr
  simp at hpr

/-- C6 witness: a concrete successful resolution of root `a` depending on
`b`, whose graph contains `b` as a key. -/
theorem resolve_dependencies_closed_witness :
    ("b" : String) ∈
      (([("b", ⟨"b", ⟨1, 0, 0⟩, []⟩), ("a", ⟨"a", ⟨1, 0, 0⟩, [("b", ())]⟩)] :
        List (String × DependencyNode Unit)).map Prod.fst) := by
  have h := @resolve_dependencies_closed Unit Unit (fun _ _ => true)
    (fun p _ => .ok (⟨1, 0, 0⟩, if p = "a" then [("b", ())] else [])) 4 [("a", ())]
    [("b", ⟨"b", ⟨1, 0, 0⟩, []⟩), ("a", ⟨"a", ⟨1, 0, 0⟩, [("b", ())]⟩)] (by decide)
  exact h ("a", ⟨"a", ⟨1, 0, 0⟩, [("b", ())]⟩) (by simp)
    ("b", ()) (by simp)

/-! ## Import classification (`resolver/import_parser.rs`) -/

/-- The character class `[a-zA-Z]` of the third-party pattern's TLD part. -/
def isAsciiLetter (c : Char) : Bool :=
  ('a' ≤ c && c ≤ 'z') || ('A' ≤ c && c ≤ 'Z')

/-- The character class `[a-zA-Z0-9.-]` of the third-party pattern's host
part. -/
def hostChar (c : Char) : Bool :=
  ('a' ≤ c && c ≤ 'z') || ('A' ≤ c && c ≤ 'Z') || ('0' ≤ c && c ≤ '9') ||
    decide (c = '.') || decide (c = '-')

/-- Matcher for `[a-zA-Z]*/` — the tail of the TLD part after its first two
letters (the `{2,}` quantifier backtracks, which for a run terminated by a
non-letter is the same as this linear scan). -/
def lettersThenSlash : List Char → Bool
  | [] => false
  | c :: rest => decide (c = '/') || (isAsciiLetter c && lettersThenSlash rest)

/-- Matcher for `[a-zA-Z]{2,}/`. -/
def tldPart : List Char → Bool
  | c1 :: c2 :: rest => isAsciiLetter c1 && isAsciiLetter c2 && lettersThenSlash rest
  | _ => false

/-- Matcher for `[a-zA-Z0-9.-]*\.[a-zA-Z]{2,}/` with backtracking over the
position of the dot (the dot is itself a host character, so both readings
of each position are tried, combined with `||`). -/
def tpRest : List Char → Bool
  | [] => false
  | c :: rest => (decide (c = '.') && tldPart rest) || (hostChar c && tpRest rest)

/-- `Regex::is_match` of the anchored third-party pattern
`^[a-zA-Z0-9.-]+\.[a-zA-Z]{2,}/` (import_parser.rs line 19). -/
def thirdPartyMatch : List Char → Bool
  | [] => false
  | c :: rest => hostChar c && tpRest rest

/-- `ImportParser::classify_import` (import_parser.rs lines 43-56).  The
anchored prefix regexes `^stdlib/` and `^internal/` are prefix tests; the
final two branches of the source both yield `Local` and are kept
separate. -/
def ImportParser.classify_import (import_path : String) : ImportType :=
  if strStartsWith import_path "stdlib/" then .stdlib import_path
  else if strStartsWith import_path "internal/" then .internal import_path
  else if thirdPartyMatch import_path.data then .thirdParty import_path
  else if strStartsWith import_path "./" || strStartsWith import_path "../" then
    .local' import_path
  else .local' import_path

/-- The specification's wording of the third-party predicate: the string
decomposes as a nonempty host-character block, a dot, a TLD of at least two
letters, and a `/` with arbitrary remainder. -/
def hostQualified (s : String) : Prop :=
  ∃ A T rest : List Char,
    s.data = A ++ '.' :: (T ++ '/' :: rest) ∧ A ≠ [] ∧
      (∀ c ∈ A, hostChar c = true) ∧ 2 ≤ T.length ∧
      (∀ c ∈ T, isAsciiLetter c = true)

/-- Whitespace characters of the regex class `\s` (ASCII range). -/
def isWsChar (c : Char) : Bool :=
  decide (c = ' ') || decide (c = '\t') || decide (c = '\n') ||
    decide (c = '\r') || decide (c = '\x0b') || decide (c = '\x0c')

theorem lettersThenSlash_iff (l : List Char) :
    lettersThenSlash l = true ↔
      ∃ T rest, l = T ++ '/' :: rest ∧ ∀ c ∈ T, isAsciiLetter c = true := by
  induction l with
  | nil =>
      simp only [lettersThenSlash]
      constructor
      · intro h; cases h
      · rintro ⟨T, rest, h, -⟩
        cases T <;> simp at h
  | cons c cs ih =>
      simp only [lettersThenSlash, Bool.or_eq_true, Bool.and_eq_true, decide_eq_true_eq]
      constructor
      · rintro (rfl | ⟨hc, hrec⟩)
        · exact ⟨[], cs, rfl, by simp⟩
        · obtain ⟨T, rest, rfl, hT⟩ := ih.mp hrec
          exact ⟨c :: T, rest, rfl, by
            intro x hx
            rcases List.mem_cons.mp hx with rfl | hx'
            · exact hc
            · exact hT x hx'⟩
      · rintro ⟨T, rest, heq, hT⟩
        cases T with
        | nil =>
            simp at heq
            exact Or.inl heq.1
        | cons t ts =>
            simp only [List.cons_append, List.cons.injEq] at heq
            obtain ⟨rfl, heq'⟩ := heq
            right
            refine ⟨hT c (by simp), ih.mpr ⟨ts, rest, heq', ?_⟩⟩
            intro x hx
            exact hT x (by simp [hx])

theorem tldPart_iff (l : List Char) :
    tldPart l = true ↔
      ∃ T rest, l = T ++ '/' :: rest ∧ 2 ≤ T.length ∧
        ∀ c ∈ T, isAsciiLetter c = true := by
  constructor
  · intro h
    match l, h with
    | c1 :: c2 :: rest, h =>
        simp only [tldPart, Bool.and_eq_true] at h
        obtain ⟨⟨h1, h2⟩, h3⟩ := h
        obtain ⟨T, rest', rfl, hT⟩ := (lettersThenSlash_iff rest).mp h3
        refine ⟨c1 :: c2 :: T, rest', rfl, by simp, ?_⟩
        intro x hx
        rcases List.mem_cons.mp hx with rfl | hx'
        · exact h1
        rcases List.mem_cons.mp hx' with rfl | hx''
        · exact h2
        · exact hT x hx''
  · rintro ⟨T, rest, rfl, hlen, hT⟩
    match T, hlen with
    | t1 :: t2 :: ts, _ =>
        simp only [List.cons_append, tldPart, Bool.and_eq_true]
        refine ⟨⟨hT t1 (by simp), hT t2 (by simp)⟩, ?_⟩
        refine (lettersThenSlash_iff _).mpr ⟨ts, rest, rfl, ?_⟩
        intro x hx
        exact hT x (by simp [hx])

theorem tpRest_iff (l : List Char) :
    tpRest l = true ↔
      ∃ A T rest, l = A ++ '.' :: (T ++ '/' :: rest) ∧
        (∀ c ∈ A, hostChar c = true) ∧ 2 ≤ T.length ∧
        ∀ c ∈ T, isAsciiLetter c = true := by
  induction l with
  | nil =>
      simp only [tpRest]
      constructor
      · intro h; cases h
      · rintro ⟨A, T, rest, h, -⟩
        cases A <;> simp at h
  | cons c cs ih =>
      simp only [tpRest, Bool.or_eq_true, Bool.and_eq_true, decide_eq_true_eq]
      constructor
      · rintro (⟨rfl, htld⟩ | ⟨hc, hrec⟩)
        · obtain ⟨T, rest, rfl, hlen, hT⟩ := (tldPart_iff cs).mp htld
          exact ⟨[], T, rest, rfl, by simp, hlen, hT⟩
        · obtain ⟨A, T, rest, rfl, hA, hlen, hT⟩ := ih.mp hrec
          refine ⟨c :: A, T, rest, rfl, ?_, hlen, hT⟩
          intro x hx
          rcases List.mem_cons.mp hx with rfl | hx'
          · exact hc
          · exact hA x hx'
      · rintro ⟨A, T, rest, heq, hA, hlen, hT⟩
        cases A with
        | nil =>
            simp only [List.nil_append, List.cons.injEq] at heq
            obtain ⟨rfl, rfl⟩ := heq
            exact Or.inl ⟨rfl, (tldPart_iff _).mpr ⟨T, rest, rfl, hlen, hT⟩⟩
        | cons a as =>
            simp only [List.cons_append, List.cons.injEq] at heq
            obtain ⟨rfl, heq'⟩ := heq
            right
            refine ⟨hA c (by simp), ih.mpr ⟨as, T, rest, heq', ?_, hlen, hT⟩⟩
            intro x hx
            exact hA x (by simp [hx])

/-- The executable matcher of the source's third-party regex agrees with the
specification's decomposition reading. -/
theorem thirdPartyMatch_iff (s : String) :
    thirdPartyMatch s.data = true ↔ hostQualified s := by
  unfold hostQualified
  cases hd : s.data with
  | nil =>
      simp only [thirdPartyMatch]
      constructor
      · intro h; cases h
      · rintro ⟨A, T, rest, h, hne, -⟩
        cases A with
        | nil => simp at h
        | cons a as => simp at h
  | cons c cs =>
      simp only [thirdPartyMatch, Bool.and_eq_true]
      constructor
      · rintro ⟨hc, hrest⟩
        obtain ⟨A, T, rest, rfl, hA, hlen, hT⟩ := (tpRest_iff cs).mp hrest
        refine ⟨c :: A, T, rest, rfl, by simp, ?_, hlen, hT⟩
        intro x hx
        rcases List.mem_cons.mp hx with rfl | hx'
        · exact hc
        · exact hA x hx'
      · rintro ⟨A, T, rest, heq, hne, hA, hlen, hT⟩
        cases A with
        | nil => exact absurd rfl hne
        | cons a as =>
            simp only [List.cons_append, List.cons.injEq] at heq
            obtain ⟨rfl, heq'⟩ := heq
            exact ⟨hA c (by simp),
              (tpRest_iff cs).mpr ⟨as, T, rest, heq', fun x hx => hA x (by simp [hx]),
                hlen, hT⟩⟩

/-- A whitespace character is not a host character. -/
theorem ws_not_host (c : Char) (h : isWsChar c = true) : hostChar c = false := by
  simp only [isWsChar, Bool.or_eq_true, decide_eq_true_eq] at h
  rcases h with ((((rfl | rfl) | rfl) | rfl) | rfl) | rfl <;> decide

/-- C2: `classify_import` is total by type, applies the classification
predicates in priority order — `stdlib/` prefix, then `internal/` prefix,
then the host-qualified third-party decomposition (the claim's reading of
the regex), everything else Local — and sends the empty string and
whitespace-only strings to Local. -/
theorem classify_import_priority :
    (∀ s : String,
      (strStartsWith s "stdlib/" = true →
        ImportParser.classify_import s = .stdlib s) ∧
      (strStartsWith s "stdlib/" = false → strStartsWith s "internal/" = true →
        ImportParser.classify_import s = .internal s) ∧
      (strStartsWith s "stdlib/" = false → strStartsWith s "internal/" = false →
        hostQualified s → ImportParser.classify_import s = .thirdParty s) ∧
      (strStartsWith s "stdlib/" = false → strStartsWith s "internal/" = false →
        ¬ hostQualified s → ImportParser.classify_import s = .local' s)) ∧
    ImportParser.classify_import "" = .local' ("") ∧
    (∀ s : String, (∀ c ∈ s.data, isWsChar c = true) →
      ImportParser.classify_import s = .local' s) := by
  refine ⟨fun s => ⟨?_, ?_, ?_, ?_⟩, rfl, fun s hws => ?_⟩
  · intro h1
    simp [ImportParser.classify_import, h1]
  · intro h1 h2
    simp [ImportParser.classify_import, h1, h2]
  · intro h1 h2 h3
    have hm : thirdPartyMatch s.data = true := (thirdPartyMatch_iff s).mpr h3
    simp [ImportParser.classify_import, h1, h2, hm]
  · intro h1 h2 h3
    have hm : thirdPartyMatch s.data = false := by
      rcases hb : thirdPartyMatch s.data with _ | _
      · rfl
      · exact absurd ((thirdPartyMatch_iff s).mp hb) h3
    cases hloc : (strStartsWith s "./" || strStartsWith s "../") <;>
      simp [ImportParser.classify_import, h1, h2, hm, hloc]
  · have h1 : strStartsWith s "stdlib/" = false := by
      rcases hd : s.data with _ | ⟨c, cs⟩
      · simp [strStartsWith, hd, List.isPrefixOf]
      · have hc := hws c (by simp [hd])
        have : c ≠ 's' := by
          intro hcs
          subst hcs
          simp [isWsChar] at hc
        simp only [strStartsWith, hd]
        simp [List.isPrefixOf]
        intro hsc
        exact absurd hsc.symm this
    have h2 : strStartsWith s "internal/" = false := by
      rcases hd : s.data with _ | ⟨c, cs⟩
      · simp [strStartsWith, hd, List.isPrefixOf]
      · have hc := hws c (by simp [hd])
        have : c ≠ 'i' := by
          intro hcs
          subst hcs
          simp [isWsChar] at hc
        simp only [strStartsWith, hd]
        simp [List.isPrefixOf]
        intro hsc
        exact absurd hsc.symm this
    have hm : thirdPartyMatch s.data = false := by
      rcases hd : s.data with _ | ⟨c, cs⟩
      · rfl
      · have hc := ws_not_host c (hws c (by simp [hd]))
        simp [thirdPartyMatch, hc]
    cases hloc : (strStartsWith s "./" || strStartsWith s "../") <;>
      simp [ImportParser.classify_import, h1, h2, hm, hloc]

/-- C2 witness: the priority branches at concrete inputs — a stdlib path,
an internal path, a host-qualified third-party path (decomposition given
explicitly), and a whitespace-only string. -/
theorem classify_import_priority_witness :
    ImportParser.classify_import "stdlib/string" = .stdlib "stdlib/string" ∧
    ImportParser.classify_import "internal/runtime/memory" =
      .internal "internal/runtime/memory" ∧
    ImportParser.classify_import "github.com/u/r" = .thirdParty "github.com/u/r" ∧
    ImportParser.classify_import " " = .local' (" ") := by
  have h := classify_import_priority
  refine ⟨(h.1 "stdlib/string").1 (by decide),
          (h.1 "internal/runtime/memory").2.1 (by decide) (by decide),
          (h.1 "github.com/u/r").2.2.1 (by decide) (by decide)
            ⟨"github".data, "com".data, "u/r".data, by decide, by decide, by decide,
              by decide, by decide⟩,
          h.2.2 " " (by decide)⟩

/-! ## Import statement scanning (`import_parser.rs` lines 30-41) -/

/-- Attempt to match the regex `import\s+"([^"]+)"` at the head of the
list: the literal `import`, at least one whitespace character, a quote, a
nonempty capture of non-quote characters, a closing quote.  Returns the
capture and the suffix after the match. -/
def matchImportAt (l : List Char) : Option (List Char × List Char) :=
  if "import".data.isPrefixOf l then
    let l1 := l.drop 6
    let ws := l1.takeWhile isWsChar
    if ws.isEmpty then none
    else
      match l1.drop ws.length with
      | '"' :: l2 =>
          let path := l2.takeWhile fun c => decide (c ≠ '"')
          if path.isEmpty then none
          else
            match l2.drop path.length with
            | '"' :: l3 => some (path, l3)
            | _ => none
      | _ => none
  else none

/-- Left-to-right scan emitting non-overlapping matches with their byte
offsets (`Regex::captures_iter` semantics).  The fuel is the remaining
input length; every successful match consumes at least one character, so a
fuel equal to the initial length is never exhausted. -/
def scanImportsPos : Nat → Nat → List Char → List (Nat × List Char)
  | 0, _, _ => []
  | _ + 1, _, [] => []
  | fuel + 1, pos, c :: rest =>
      match matchImportAt (c :: rest) with
      | some pa =>
          (pos, pa.1) ::
            scanImportsPos fuel (pos + ((c :: rest).length - pa.2.length)) pa.2
      | none => scanImportsPos fuel (pos + 1) rest

/-- The matches of the import-statement pattern in a file, with offsets. -/
def importMatches (content : String) : List (Nat × String) :=
  (scanImportsPos content.data.length 0 content.data).map fun m =>
    (m.1, String.mk m.2)

/-- `ImportParser::parse_imports_from_content` (import_parser.rs lines
30-41): classify each captured path, in match order. -/
def ImportParser.parse_imports_from_content (content : String) : List ImportType :=
  (importMatches content).map fun m => ImportParser.classify_import m.2

/-- The 1-indexed source line containing a given character offset. -/
def lineOfOffset (content : String) (off : Nat) : Nat :=
  1 + (content.data.take off).count '\n'

/-- C8 (code bug): `validate_imports_with_locations` fills the `line` field
of `ImportError` — displayed as `file:line:column` — with the ordinal of
the import in the parsed list, not with the line of the match.  For a file
whose only import sits on line 2, the pipeline reports line 1 while the
match offset says line 2. -/
theorem import_line_number_bug :
    AccessController.validate_imports_with_locations
        [("src/main.asthra", .userCode,
          ImportParser.parse_imports_from_content
            "// header\nimport \"internal/mem\"")] =
      .error [{ file := "src/main.asthra", line := 1, column := 1,
                violation := .userToInternal "internal/mem" }] ∧
    (importMatches "// header\nimport \"internal/mem\"").map
        (fun m => lineOfOffset "// header\nimport \"internal/mem\"" m.1) = [2] := by
  constructor
  · rfl
  · rfl

/-! ## Parallel compilation scheduling (`compiler/mod.rs` lines 591-617) -/

/-- A scheduling event of the parallel compilation phase: task `i` begins
its compiler invocation, or task `i`'s invocation completes. -/
inductive SchedEvent where
  | start (i : Nat)
  | finish (i : Nat)
deriving DecidableEq, Repr

/-- Step relation of the scheduler embedded from
`compile_packages_parallel`: a spawned task may begin whenever it has not
yet run and a semaphore permit (out of `jobs`) is free, and may finish
whenever it is running.  These are the only constraints the source imposes:
the tasks are spawned unconditionally for every package and synchronise on
nothing but the permit. -/
def permittedFrom (jobs : Nat) (running done : List Nat) : List SchedEvent → Bool
  | [] => true
  | .start i :: rest =>
      decide (¬ i ∈ running) && decide (¬ i ∈ done) &&
        decide (running.length < jobs) &&
        permittedFrom jobs (i :: running) done rest
  | .finish i :: rest =>
      decide (i ∈ running) && permittedFrom jobs (running.erase i) (i :: done) rest

/-- A complete schedule of `n` spawned compilation tasks under `jobs`
permits: a well-formed interleaving in which every task starts and
finishes. -/
def permittedTrace (n jobs : Nat) (tr : List SchedEvent) : Bool :=
  permittedFrom jobs [] [] tr &&
    (List.range n).all (fun i => tr.contains (.finish i)) &&
    tr.all fun e =>
      match e with
      | .start i => decide (i < n)
      | .finish i => decide (i < n)

/-- The schedules `compile_packages_parallel` admits for a package list:
one task per list entry, gated only by the `jobs`-permit semaphore.  The
packages' dependency maps are never read by the scheduling code, which is
the defect C4 exhibits. -/
def compile_packages_parallel_traces (packages : List PackageInfo) (jobs : Nat)
    (tr : List SchedEvent) : Bool :=
  permittedTrace packages.length jobs tr

/-- A library package `lib` with no dependencies. -/
def pkgLib : PackageInfo :=
  { name := "lib"
    version := ⟨1, 0, 0⟩
    dependencies := []
    source_files := ["src/lib.asthra"]
    main_file := "src/lib.asthra"
    output_path := "out/lib.o"
    checksum := "cl" }

/-- A package `main` depending on `lib`. -/
def pkgMain : PackageInfo :=
  { name := "main"
    version := ⟨1, 0, 0⟩
    dependencies := [("lib", "1.0.0")]
    source_files := ["src/main.asthra"]
    main_file := "src/main.asthra"
    output_path := "out/main.o"
    checksum := "cm" }

/-- C4 (code bug): for the dependency edge lib → main (`pkgMain` depends on
`pkgLib`, task indices 0 and 1), the scheduler of
`compile_packages_parallel` admits a schedule in which `main` starts and
even finishes before `lib` starts, because spawned tasks are gated only by
the semaphore; so `u.Done` happens-before `v.Running` fails in an admitted
interleaving. -/
theorem parallel_scheduler_ignores_dependencies :
    compile_packages_parallel_traces [pkgLib, pkgMain] 2
        [.start 1, .finish 1, .start 0, .finish 0] = true ∧
    ("lib", "1.0.0") ∈ pkgMain.dependencies ∧
    ¬ ([SchedEvent.start 1, .finish 1, .start 0, .finish 0].indexOf
          (SchedEvent.finish 0) <
        [SchedEvent.start 1, .finish 1, .start 0, .finish 0].indexOf
          (SchedEvent.start 1)) := by
  refine ⟨rfl, by simp [pkgMain], by decide⟩

/-! ## Topological sort (`compiler/mod.rs` lines 360-427)

`topological_sort_packages` keys packages by name in hash maps.  The
embedding works on the package list directly; the correctness theorem
carries the hypotheses under which the name-keyed maps are faithful:
distinct package names and duplicate-free dependency keys (dependency maps
are `HashMap`s in the source, so their key lists are duplicate-free by
construction).  Hash-map iteration order is arbitrary in the source; the
embedding fixes list order, a legitimate determinisation since the claim
constrains no tie-breaking. -/

instance : Inhabited PackageInfo :=
  ⟨{ name := "", version := ⟨0, 0, 0⟩, dependencies := [], source_files := [],
     main_file := "", output_path := "", checksum := "" }⟩

/-- The key set of a package's dependency map. -/
def depsKeys (p : PackageInfo) : List String := p.dependencies.map Prod.fst

/-- The names of the packages being sorted (the key set of `package_map`). -/
def namesOf (packages : List PackageInfo) : List String := packages.map (·.name)

/-- The dependencies of `p` that are themselves packages of the set — the
edges the source keeps (`if package_map.contains_key(dep_name)`). -/
def inSetDeps (packages : List PackageInfo) (p : PackageInfo) : List String :=
  (depsKeys p).filter fun d => decide (d ∈ namesOf packages)

/-- The adjacency list `graph[d]`: dependents of `d`, in package order. -/
def successors (packages : List PackageInfo) (d : String) : List String :=
  (packages.filter fun q => decide (d ∈ depsKeys q)).map (·.name)

/-- `package_map[&current]` — total because the loop only looks up queued
names, which are package names. -/
def lookupPkg (packages : List PackageInfo) (n : String) : PackageInfo :=
  match packages.find? fun p => decide (p.name = n) with
  | some p => p
  | none => default

/-- Point update of the in-degree map. -/
def updIndeg (f : String → Nat) (k : String) (v : Nat) : String → Nat :=
  fun n => if n = k then v else f n

/-- The inner `for neighbor in neighbors` loop: decrement each neighbour's
in-degree and enqueue it when the count reaches zero. -/
def processNeighbors (indeg : String → Nat) (neighbors : List String) :
    (String → Nat) × List String :=
  neighbors.foldl
    (fun st nb =>
      (updIndeg st.1 nb (st.1 nb - 1),
        if st.1 nb - 1 = 0 then st.2 ++ [nb] else st.2))
    (indeg, [])

/-- The `while let Some(current) = queue.pop_front()` loop of Kahn's
algorithm.  Each iteration emits exactly one package, so a fuel equal to
the package count is never exhausted (proved below). -/
def kahnLoop (packages : List PackageInfo) :
    Nat → List String → (String → Nat) → List PackageInfo → List PackageInfo
  | 0, _, _, result => result
  | _ + 1, [], _, result => result
  | fuel + 1, current :: qrest, indeg, result =>
      let pn := processNeighbors indeg (successors packages current)
      kahnLoop packages fuel (qrest ++ pn.2) pn.1
        (result ++ [lookupPkg packages current])

/-- The initial in-degree map: for each package, the number of its
dependencies present in the set. -/
def initIndeg (packages : List PackageInfo) : String → Nat := fun n =>
  match packages.find? fun p => decide (p.name = n) with
  | some p => (inSetDeps packages p).length
  | none => 0

/-- The initial queue: all packages of in-degree zero, in package order. -/
def initQueue (packages : List PackageInfo) : List String :=
  (packages.filter fun p => decide ((inSetDeps packages p).length = 0)).map (·.name)

/-- `BuildError::CircularDependency`. -/
inductive SortError where
  | circularDependency (cycle : List String)
deriving DecidableEq, Repr

/-- `BuildOrchestrator::topological_sort_packages` (compiler/mod.rs lines
360-427): run Kahn's algorithm; if the emitted order misses packages,
fail with the remaining names. -/
def topological_sort_packages (packages : List PackageInfo) :
    Except SortError (List PackageInfo) :=
  let result := kahnLoop packages packages.length (initQueue packages)
    (initIndeg packages) []
  if result.length = packages.length then .ok result
  else .error (.circularDependency
    ((namesOf packages).filter fun n => decide (¬ n ∈ result.map (·.name))))

/-- The dependency relation restricted to the package set: `u → v` when the
package named `v` lists `u` among its in-set dependencies. -/
def depEdge (packages : List PackageInfo) (u v : String) : Prop :=
  ∃ p ∈ packages, p.name = v ∧ u ∈ inSetDeps packages p

/-- A directed cycle in the restricted dependency relation. -/
def hasCycle (packages : List PackageInfo) : Prop :=
  ∃ x, Relation.TransGen (depEdge packages) x x

theorem name_inj {packages : List PackageInfo}
    (hnames : (namesOf packages).Nodup) :
    ∀ p ∈ packages, ∀ q ∈ packages, p.name = q.name → p = q := by
  intro p hp q hq hpq
  exact List.inj_on_of_nodup_map hnames hp hq hpq

theorem lookupPkg_name {packages : List PackageInfo}
    (hnames : (namesOf packages).Nodup) {p : PackageInfo} (hp : p ∈ packages) :
    lookupPkg packages p.name = p := by
  unfold lookupPkg
  cases hfind : packages.find? fun q => decide (q.name = p.name) with
  | none =>
      exfalso
      have := List.find?_eq_none.mp hfind p hp
      simp at this
  | some q =>
      have hqmem := List.mem_of_find?_eq_some hfind
      have hqname : q.name = p.name := by
        have := List.find?_some hfind
        simpa using this
      exact name_inj hnames q hqmem p hp hqname

theorem mem_successors {packages : List PackageInfo} {d x : String} :
    x ∈ successors packages d ↔
      ∃ q ∈ packages, q.name = x ∧ d ∈ depsKeys q := by
  unfold successors
  simp only [List.mem_map, List.mem_filter, decide_eq_true_eq]
  constructor
  · rintro ⟨q, ⟨hq, hd⟩, rfl⟩
    exact ⟨q, hq, rfl, hd⟩
  · rintro ⟨q, hq, rfl, hd⟩
    exact ⟨q, ⟨hq, hd⟩, rfl⟩

theorem successors_nodup {packages : List PackageInfo}
    (hnames : (namesOf packages).Nodup) (d : String) :
    (successors packages d).Nodup := by
  have hsub : (successors packages d).Sublist (namesOf packages) :=
    List.Sublist.map _ (List.filter_sublist packages)
  exact hnames.sublist hsub

theorem inSetDeps_nodup {packages : List PackageInfo} {p : PackageInfo}
    (hdeps : ∀ q ∈ packages, (depsKeys q).Nodup) (hp : p ∈ packages) :
    (inSetDeps packages p).Nodup :=
  (hdeps p hp).filter _

theorem mem_inSetDeps {packages : List PackageInfo} {p : PackageInfo} {d : String} :
    d ∈ inSetDeps packages p ↔ d ∈ depsKeys p ∧ d ∈ namesOf packages := by
  unfold inSetDeps
  simp [List.mem_filter]

/-- Flattening of the neighbour-processing fold over a duplicate-free
neighbour list: all decrements read the incoming map, and the newly
enqueued names are exactly the neighbours whose decremented count is
zero. -/
theorem processNeighbors_spec (indeg : String → Nat) (ns : List String)
    (hns : ns.Nodup) :
    (processNeighbors indeg ns).1 =
      (fun n => if n ∈ ns then indeg n - 1 else indeg n) ∧
    (processNeighbors indeg ns).2 =
      ns.filter fun nb => decide (indeg nb - 1 = 0) := by
  suffices h : ∀ (ns : List String), ns.Nodup → ∀ (g : String → Nat) (acc : List String),
      (ns.foldl
        (fun st nb =>
          (updIndeg st.1 nb (st.1 nb - 1),
            if st.1 nb - 1 = 0 then st.2 ++ [nb] else st.2))
        (g, acc)).1 = (fun n => if n ∈ ns then g n - 1 else g n) ∧
      (ns.foldl
        (fun st nb =>
          (updIndeg st.1 nb (st.1 nb - 1),
            if st.1 nb - 1 = 0 then st.2 ++ [nb] else st.2))
        (g, acc)).2 = acc ++ ns.filter fun nb => decide (g nb - 1 = 0) by
    have := h ns hns indeg []
    simpa [processNeighbors] using this
  intro ns
  induction ns with
  | nil => intro _ g acc; simp
  | cons a as ih =>
      intro hnd g acc
      have hnotmem : ¬ a ∈ as := (List.nodup_cons.mp hnd).1
      have hnd' : as.Nodup := (List.nodup_cons.mp hnd).2
      simp only [List.foldl_cons]
      have hstep := ih hnd' (updIndeg g a (g a - 1))
        (if g a - 1 = 0 then acc ++ [a] else acc)
      refine ⟨?_, ?_⟩
      · rw [hstep.1]
        funext n
        by_cases hn : n = a
        · subst hn
          simp [hnotmem, updIndeg]
        · by_cases hmem : n ∈ as <;> simp [hmem, hn, updIndeg]
      · rw [hstep.2]
        have hfeq : (as.filter fun nb => decide (updIndeg g a (g a - 1) nb - 1 = 0)) =
            as.filter fun nb => decide (g nb - 1 = 0) := by
          apply List.filter_congr
          intro x hx
          have hxa : x ≠ a := fun h => hnotmem (h ▸ hx)
          simp [updIndeg, hxa]
        rw [hfeq]
        by_cases hz : g a - 1 = 0 <;> simp [hz]

/-- Invariant of the Kahn loop state, relative to the package set. -/
structure KahnInv (packages : List PackageInfo) (queue : List String)
    (indeg : String → Nat) (result : List PackageInfo) : Prop where
  result_sub : ∀ r ∈ result, r ∈ packages
  emitted_nodup : (result.map (·.name)).Nodup
  queue_nodup : queue.Nodup
  queue_sub : ∀ q ∈ queue, q ∈ namesOf packages
  queue_not_emitted : ∀ q ∈ queue, ¬ q ∈ result.map (·.name)
  indeg_spec : ∀ p ∈ packages,
    indeg p.name = ((inSetDeps packages p).filter
      fun d => decide (¬ d ∈ result.map (·.name))).length
  queue_iff : ∀ p ∈ packages,
    (p.name ∈ queue ↔ ¬ p.name ∈ result.map (·.name) ∧
      ((inSetDeps packages p).filter
        fun d => decide (¬ d ∈ result.map (·.name))) = [])
  sound : ∀ i (h : i < result.length),
    ∀ d ∈ inSetDeps packages (result.get ⟨i, h⟩),
      d ∈ (result.take i).map (·.name)

/-- From the soundness component: an emitted package has all its in-set
dependencies emitted. -/
theorem KahnInv.emitted_deps {packages queue indeg result}
    (inv : KahnInv packages queue indeg result)
    (hnames : (namesOf packages).Nodup)
    {p : PackageInfo} (hp : p ∈ packages)
    (hmem : p.name ∈ result.map (·.name)) :
    ∀ d ∈ inSetDeps packages p, d ∈ result.map (·.name) := by
  obtain ⟨r, hr, hrname⟩ := List.mem_map.mp hmem
  obtain ⟨i, hget⟩ := List.mem_iff_get.mp hr
  have hre : r = p := name_inj hnames r (inv.result_sub r hr) p hp hrname
  intro d hd
  have hs := inv.sound i.1 i.2 d (by
    rw [show (⟨i.1, i.2⟩ : Fin result.length) = i from rfl, hget, hre]
    exact hd)
  have hTake : (result.take i.1).Sublist result := List.take_sublist _ _
  exact (hTake.map (·.name)).mem hs

/-- The invariant holds at the loop entry. -/
theorem kahnInv_init (packages : List PackageInfo)
    (hnames : (namesOf packages).Nodup) :
    KahnInv packages (initQueue packages) (initIndeg packages) [] := by
  refine ⟨?_, ?_, ?_, ?_, ?_, ?_, ?_, ?_⟩
  · intro r hr; simp at hr
  · simp
  · exact hnames.sublist (List.Sublist.map _ (List.filter_sublist packages))
  · intro q hq
    unfold initQueue at hq
    obtain ⟨p, hp, rfl⟩ := List.mem_map.mp hq
    exact List.mem_map_of_mem _ (List.mem_of_mem_filter hp)
  · intro q _; simp
  · intro p hp
    unfold initIndeg
    cases hfind : packages.find? fun q => decide (q.name = p.name) with
    | none =>
        exfalso
        have := List.find?_eq_none.mp hfind p hp
        simp at this
    | some q =>
        have hqmem := List.mem_of_find?_eq_some hfind
        have hqname : q.name = p.name := by
          have := List.find?_some hfind
          simpa using this
        have hqp : q = p := name_inj hnames q hqmem p hp hqname
        subst hqp
        simp
  · intro p hp
    unfold initQueue
    simp only [List.map_nil, List.mem_map, List.mem_filter, decide_eq_true_eq,
      List.not_mem_nil, not_false_iff, true_and]
    constructor
    · rintro ⟨q, ⟨hq, hlen⟩, hname⟩
      have hqp : q = p := name_inj hnames q hq p hp hname
      subst hqp
      rw [List.filter_eq_self.mpr (by intro a _; simp)]
      exact List.length_eq_zero.mp hlen
    · intro hnil
      refine ⟨p, ⟨hp, ?_⟩, rfl⟩
      rw [List.filter_eq_self.mpr (by intro a _; simp)] at hnil
      simp [hnil]
  · intro i h; simp at h

/-- One iteration of the Kahn loop preserves the invariant. -/
theorem kahnInv_step (packages : List PackageInfo)
    (hnames : (namesOf packages).Nodup)
    (hdeps : ∀ p ∈ packages, (depsKeys p).Nodup)
    (current : String) (qrest : List String) (indeg : String → Nat)
    (result : List PackageInfo)
    (inv : KahnInv packages (current :: qrest) indeg result) :
    KahnInv packages
      (qrest ++ (processNeighbors indeg (successors packages current)).2)
      (processNeighbors indeg (successors packages current)).1
      (result ++ [lookupPkg packages current]) := by
  -- the dequeued package
  have hcur_names : current ∈ namesOf packages := inv.queue_sub current (by simp)
  obtain ⟨pc, hpc, hpcname⟩ := List.mem_map.mp hcur_names
  have hlook : lookupPkg packages current = pc := by
    rw [← hpcname]; exact lookupPkg_name hnames hpc
  have hmap' : (result ++ [lookupPkg packages current]).map (·.name) =
      result.map (·.name) ++ [current] := by
    simp [hlook, hpcname]
  -- facts about the dequeued element
  have hqi := (inv.queue_iff pc hpc).mp (by rw [hpcname]; exact List.mem_cons_self _ _)
  have hF3 : ¬ current ∈ result.map (·.name) := by rw [← hpcname]; exact hqi.1
  have hF2 : ((inSetDeps packages pc).filter
      fun d => decide (¬ d ∈ result.map (·.name))) = [] := hqi.2
  have hF1 : ¬ current ∈ qrest := (List.nodup_cons.mp inv.queue_nodup).1
  have hF4 : ¬ current ∈ depsKeys pc := by
    intro h
    have hmem : current ∈ inSetDeps packages pc := mem_inSetDeps.mpr ⟨h, hcur_names⟩
    have : current ∈ ((inSetDeps packages pc).filter
        fun d => decide (¬ d ∈ result.map (·.name))) :=
      List.mem_filter.mpr ⟨hmem, by simpa using hF3⟩
    rw [hF2] at this
    simp at this
  -- neighbour processing
  have hnsnodup := successors_nodup hnames current
  obtain ⟨hpn1, hpn2⟩ := processNeighbors_spec indeg (successors packages current) hnsnodup
  have hnsmem : ∀ p ∈ packages,
      (p.name ∈ successors packages current ↔ current ∈ depsKeys p) := by
    intro p hp
    constructor
    · intro h
      obtain ⟨q, hq, hqname, hd⟩ := mem_successors.mp h
      rwa [name_inj hnames q hq p hp hqname] at hd
    · intro h
      exact mem_successors.mpr ⟨p, hp, rfl, h⟩
  -- predicate decomposition for the new emitted set
  have hpred : ∀ l : List String,
      (l.filter fun d => decide (¬ d ∈ result.map (·.name) ++ [current])) =
        ((l.filter fun d => decide (¬ d ∈ result.map (·.name))).filter
          fun d => decide (¬ d = current)) := by
    intro l
    rw [List.filter_filter]
    apply List.filter_congr
    intro x _
    by_cases h1 : x ∈ result.map (·.name) <;> by_cases h2 : x = current <;>
      simp [h1, h2]
  -- old filters are duplicate-free
  have hfilter_nodup : ∀ p ∈ packages,
      ((inSetDeps packages p).filter
        fun d => decide (¬ d ∈ result.map (·.name))).Nodup := by
    intro p hp
    exact (inSetDeps_nodup hdeps hp).filter _
  -- membership of current in the old filter of p
  have hcur_oldFilter : ∀ p ∈ packages, current ∈ depsKeys p →
      current ∈ ((inSetDeps packages p).filter
        fun d => decide (¬ d ∈ result.map (·.name))) := by
    intro p hp h
    exact List.mem_filter.mpr ⟨mem_inSetDeps.mpr ⟨h, hcur_names⟩, by simpa using hF3⟩
  -- filter elimination when current is not among p's dependencies
  have hfilter_noop : ∀ p ∈ packages, ¬ current ∈ depsKeys p →
      (((inSetDeps packages p).filter
          fun d => decide (¬ d ∈ result.map (·.name))).filter
        fun d => decide (¬ d = current)) =
        ((inSetDeps packages p).filter
          fun d => decide (¬ d ∈ result.map (·.name))) := by
    intro p hp h
    apply List.filter_eq_self.mpr
    intro a ha
    have haIn : a ∈ inSetDeps packages p := List.mem_of_mem_filter ha
    have : a ≠ current := by
      intro rfl_eq
      subst rfl_eq
      exact h (mem_inSetDeps.mp haIn).1
    simpa using this
  -- length computation when current is among p's dependencies
  have hfilter_dec : ∀ p ∈ packages, current ∈ depsKeys p →
      (((inSetDeps packages p).filter
          fun d => decide (¬ d ∈ result.map (·.name))).filter
        fun d => decide (¬ d = current)) =
        ((inSetDeps packages p).filter
          fun d => decide (¬ d ∈ result.map (·.name))).erase current := by
    intro p hp h
    rw [(hfilter_nodup p hp).erase_eq_filter]
    apply List.filter_congr
    intro a _
    by_cases hac : a = current <;> simp [hac]
  -- the newly enqueued names
  have hF5 : ∀ p ∈ packages,
      (p.name ∈ (processNeighbors indeg (successors packages current)).2 ↔
        current ∈ depsKeys p ∧ indeg p.name - 1 = 0) := by
    intro p hp
    rw [hpn2]
    simp only [List.mem_filter, decide_eq_true_eq]
    exact and_congr_left fun _ => hnsmem p hp
  have hF6 : ∀ p ∈ packages,
      p.name ∈ (processNeighbors indeg (successors packages current)).2 →
        ¬ p.name ∈ result.map (·.name) := by
    intro p hp hnew hem
    have hdep := ((hF5 p hp).mp hnew).1
    have := inv.emitted_deps hnames hp hem current (mem_inSetDeps.mpr ⟨hdep, hcur_names⟩)
    exact hF3 this
  have hF7 : ∀ p ∈ packages,
      p.name ∈ (processNeighbors indeg (successors packages current)).2 →
        p.name ≠ current := by
    intro p hp hnew heq
    have hdep := ((hF5 p hp).mp hnew).1
    have hppc : p = pc := name_inj hnames p hp pc hpc (heq.trans hpcname.symm)
    rw [hppc] at hdep
    exact hF4 hdep
  have hF8 : ∀ p ∈ packages, p.name ∈ qrest →
      (((inSetDeps packages p).filter
        fun d => decide (¬ d ∈ result.map (·.name))) = [] ∧
        ¬ p.name ∈ result.map (·.name)) := by
    intro p hp hq
    have := (inv.queue_iff p hp).mp (List.mem_cons_of_mem _ hq)
    exact ⟨this.2, this.1⟩
  have hF9 : ∀ q ∈ qrest, q ≠ current := by
    intro q hq heq
    subst heq
    exact hF1 hq
  -- singleton shape of the old filter for newly enqueued packages
  have hsingleton : ∀ p ∈ packages, current ∈ depsKeys p → indeg p.name - 1 = 0 →
      ((inSetDeps packages p).filter
        fun d => decide (¬ d ∈ result.map (·.name))) = [current] := by
    intro p hp hdep hz
    have hlen := inv.indeg_spec p hp
    have hmem := hcur_oldFilter p hp hdep
    have hpos : 1 ≤ ((inSetDeps packages p).filter
        fun d => decide (¬ d ∈ result.map (·.name))).length :=
      List.length_pos.mpr (fun he => by rw [he] at hmem; simp at hmem)
    have hone : ((inSetDeps packages p).filter
        fun d => decide (¬ d ∈ result.map (·.name))).length = 1 := by
      omega
    obtain ⟨a, ha⟩ := List.length_eq_one.mp hone
    rw [ha] at hmem ⊢
    simp at hmem
    rw [hmem]
  constructor
  case result_sub =>
    intro r hr
    rcases List.mem_append.mp hr with h | h
    · exact inv.result_sub r h
    · simp only [List.mem_singleton] at h
      rw [h, hlook]
      exact hpc
  case emitted_nodup =>
    rw [hmap']
    simp [List.nodup_append, inv.emitted_nodup, hF3]
  case queue_nodup =>
    apply List.Nodup.append (List.nodup_cons.mp inv.queue_nodup).2
    · rw [hpn2]
      exact hnsnodup.filter _
    · intro x hx1 hx2
      have hxnames : x ∈ namesOf packages := inv.queue_sub x (List.mem_cons_of_mem _ hx1)
      obtain ⟨px, hpx, hpxname⟩ := List.mem_map.mp hxnames
      rw [← hpxname] at hx1 hx2
      have h8 := hF8 px hpx hx1
      have h5 := (hF5 px hpx).mp hx2
      have := hcur_oldFilter px hpx h5.1
      rw [h8.1] at this
      simp at this
  case queue_sub =>
    intro q hq
    rcases List.mem_append.mp hq with h | h
    · exact inv.queue_sub q (List.mem_cons_of_mem _ h)
    · rw [hpn2] at h
      have := List.mem_of_mem_filter h
      obtain ⟨p, hp, hpn, _⟩ := mem_successors.mp this
      rw [← hpn]
      exact List.mem_map_of_mem _ hp
  case queue_not_emitted =>
    intro q hq
    rw [hmap']
    simp only [List.mem_append, List.mem_singleton]
    rcases List.mem_append.mp hq with h | h
    · rintro (hem | rfl)
      · obtain ⟨pq, hpq, hpqname⟩ := List.mem_map.mp
          (inv.queue_sub q (List.mem_cons_of_mem _ h))
        rw [← hpqname] at h hem
        exact (hF8 pq hpq h).2 hem
      · exact hF1 h
    · have hqnames : q ∈ namesOf packages := by
        rw [hpn2] at h
        have hmm := List.mem_of_mem_filter h
        obtain ⟨p, hp, hpn, _⟩ := mem_successors.mp hmm
        rw [← hpn]
        exact List.mem_map_of_mem (·.name) hp
      obtain ⟨pq, hpq, hpqname⟩ := List.mem_map.mp hqnames
      rw [← hpqname] at h
      rintro (hem | heq)
      · exact hF6 pq hpq h (hpqname ▸ hem)
      · exact hF7 pq hpq h (hpqname ▸ heq)
  case indeg_spec =>
    intro p hp
    rw [hmap', hpn1, hpred]
    show (if p.name ∈ successors packages current then indeg p.name - 1
      else indeg p.name) = _
    by_cases hdep : current ∈ depsKeys p
    · rw [if_pos ((hnsmem p hp).mpr hdep), hfilter_dec p hp hdep,
        List.length_erase_of_mem (hcur_oldFilter p hp hdep), inv.indeg_spec p hp]
    · rw [if_neg (fun h => hdep ((hnsmem p hp).mp h)), hfilter_noop p hp hdep,
        inv.indeg_spec p hp]
  case queue_iff =>
    intro p hp
    rw [hmap', hpred]
    constructor
    · intro hq
      rcases List.mem_append.mp hq with h | h
      · have h8 := hF8 p hp h
        have h9 := hF9 p.name h
        refine ⟨by simp [h8.2, h9], ?_⟩
        rw [h8.1]
        rfl
      · have h5 := (hF5 p hp).mp h
        have h6 := hF6 p hp h
        have h7 := hF7 p hp h
        refine ⟨by simp [h6, h7], ?_⟩
        rw [hsingleton p hp h5.1 h5.2]
        simp
    · rintro ⟨hnem, hnil⟩
      simp only [List.mem_append, List.mem_singleton, not_or] at hnem
      by_cases hcurmem : current ∈ ((inSetDeps packages p).filter
          fun d => decide (¬ d ∈ result.map (·.name)))
      · -- the filtered list collapses to [current]; p is newly enqueued
        have hdep : current ∈ depsKeys p :=
          (mem_inSetDeps.mp (List.mem_of_mem_filter hcurmem)).1
        rw [hfilter_dec p hp hdep] at hnil
        have hlen := List.length_erase_of_mem hcurmem
        rw [hnil] at hlen
        have hone : ((inSetDeps packages p).filter
            fun d => decide (¬ d ∈ result.map (·.name))).length = 1 := by
          have hpos : 1 ≤ ((inSetDeps packages p).filter
              fun d => decide (¬ d ∈ result.map (·.name))).length :=
            List.length_pos.mpr (fun he => by rw [he] at hcurmem; simp at hcurmem)
          have hz : ((inSetDeps packages p).filter
              fun d => decide (¬ d ∈ result.map (·.name))).length - 1 = 0 := by
            simpa using hlen.symm
          omega
        refine List.mem_append.mpr (Or.inr ((hF5 p hp).mpr ⟨hdep, ?_⟩))
        rw [inv.indeg_spec p hp, hone]
      · -- the filter was already empty; p was already queued
        have hnoop : (((inSetDeps packages p).filter
            fun d => decide (¬ d ∈ result.map (·.name))).filter
          fun d => decide (¬ d = current)) =
            ((inSetDeps packages p).filter
              fun d => decide (¬ d ∈ result.map (·.name))) := by
          apply List.filter_eq_self.mpr
          intro a ha
          have : a ≠ current := fun he => hcurmem (he ▸ ha)
          simpa using this
        rw [hnoop] at hnil
        have := (inv.queue_iff p hp).mpr ⟨hnem.1, hnil⟩
        rcases List.mem_cons.mp this with h | h
        · exact absurd h hnem.2
        · exact List.mem_append.mpr (Or.inl h)
  case sound =>
    intro i h d hd
    have hlen' : (result ++ [lookupPkg packages current]).length = result.length + 1 := by
      simp
    by_cases hi : i < result.length
    · have hget : (result ++ [lookupPkg packages current]).get ⟨i, h⟩ =
          result.get ⟨i, hi⟩ := List.get_append i hi
      have htake : (result ++ [lookupPkg packages current]).take i = result.take i :=
        List.take_append_of_le_length (Nat.le_of_lt hi)
      rw [htake]
      exact inv.sound i hi d (by rwa [← hget])
    · have hieq : i = result.length := by
        rw [hlen'] at h
        omega
      subst hieq
      have hget : (result ++ [lookupPkg packages current]).get ⟨result.length, h⟩ =
          lookupPkg packages current := by
        simp
      rw [hget, hlook] at hd
      have htake : (result ++ [lookupPkg packages current]).take result.length =
          result := List.take_append_of_le_length (Nat.le_refl _) |>.trans
            (List.take_length result)
      rw [htake]
      by_contra hnem
      have : d ∈ ((inSetDeps packages pc).filter
          fun dd => decide (¬ dd ∈ result.map (·.name))) :=
        List.mem_filter.mpr ⟨hd, by simpa using hnem⟩
      rw [hF2] at this
      simp at this

/-- Running the loop from an invariant state with fuel matching the number
of packages still to emit ends with an empty queue and the invariant. -/
theorem kahnLoop_run (packages : List PackageInfo)
    (hnames : (namesOf packages).Nodup)
    (hdeps : ∀ p ∈ packages, (depsKeys p).Nodup) :
    ∀ (fuel : Nat) (queue : List String) (indeg : String → Nat)
      (result : List PackageInfo),
      KahnInv packages queue indeg result →
      packages.length = fuel + result.length →
      ∃ indegF, KahnInv packages [] indegF
        (kahnLoop packages fuel queue indeg result) := by
  intro fuel
  induction fuel with
  | zero =>
      intro queue indeg result inv hbud
      cases queue with
      | nil => exact ⟨indeg, by simpa [kahnLoop] using inv⟩
      | cons q qs =>
          exfalso
          have hqnames : q ∈ namesOf packages := inv.queue_sub q (by simp)
          have hemsub : (result.map (·.name)) ⊆ namesOf packages := by
            intro x hx
            obtain ⟨r, hr, rfl⟩ := List.mem_map.mp hx
            exact List.mem_map_of_mem _ (inv.result_sub r hr)
          have hlen : (result.map (·.name)).length = (namesOf packages).length := by
            simp only [List.length_map, namesOf]
            omega
          have hperm : (result.map (·.name)).Perm (namesOf packages) :=
            (inv.emitted_nodup.subperm hemsub).perm_of_length_le (le_of_eq hlen.symm)
          exact inv.queue_not_emitted q (by simp) (hperm.symm.subset hqnames)
  | succ fuel ih =>
      intro queue indeg result inv hbud
      cases queue with
      | nil => exact ⟨indeg, by simpa [kahnLoop] using inv⟩
      | cons current qrest =>
          have hstep := kahnInv_step packages hnames hdeps current qrest indeg result inv
          have hbud' : packages.length =
              fuel + (result ++ [lookupPkg packages current]).length := by
            simp only [List.length_append, List.length_singleton]
            omega
          have hrun := ih _ _ _ hstep hbud'
          simpa [kahnLoop] using hrun

/-- In a finite nonempty set in which every element has an `r`-successor
inside the set, `r` has a cycle (pigeonhole on iterated successors). -/
theorem cycle_of_forced_succ {α : Type} [DecidableEq α] (S : List α)
    (r : α → α → Prop) (hne : S ≠ [])
    (hsucc : ∀ x ∈ S, ∃ y ∈ S, r x y) :
    ∃ x, Relation.TransGen r x x := by
  classical
  let g : Nat → {x // x ∈ S} := fun k =>
    Nat.rec (⟨S.head hne, List.head_mem hne⟩)
      (fun _ prev => ⟨(hsucc prev.1 prev.2).choose,
        (hsucc prev.1 prev.2).choose_spec.1⟩) k
  have hstep : ∀ k, r (g k).1 (g (k + 1)).1 := fun k =>
    (hsucc (g k).1 (g k).2).choose_spec.2
  have hchain : ∀ i j, i < j → Relation.TransGen r (g i).1 (g j).1 := by
    intro i j hij
    induction j, hij using Nat.le_induction with
    | base => exact Relation.TransGen.single (hstep i)
    | succ j _ ih => exact ih.tail (hstep j)
  have hcard : S.toFinset.card < (Finset.range (S.length + 1)).card := by
    rw [Finset.card_range]
    exact Nat.lt_succ_of_le (List.toFinset_card_le S)
  have hmaps : ∀ k ∈ Finset.range (S.length + 1),
      (g k).1 ∈ S.toFinset := fun k _ => List.mem_toFinset.mpr (g k).2
  obtain ⟨i, _, j, _, hij, heq⟩ :=
    Finset.exists_ne_map_eq_of_card_lt_of_maps_to hcard hmaps
  rcases lt_or_gt_of_ne hij with h | h
  · exact ⟨(g i).1, heq ▸ hchain i j h⟩
  · exact ⟨(g j).1, heq ▸ hchain j i h⟩

/-- A complete emitted order that respects dependencies rules out a cycle:
positions along the order increase across every edge. -/
theorem no_cycle_of_complete (packages out : List PackageInfo)
    (hnodup : (out.map (·.name)).Nodup)
    (hcover : ∀ p ∈ packages, p ∈ out)
    (hsound : ∀ i (h : i < out.length),
      ∀ d ∈ inSetDeps packages (out.get ⟨i, h⟩), d ∈ (out.take i).map (·.name)) :
    ¬ hasCycle packages := by
  rintro ⟨x, hx⟩
  have hkey : ∀ u v, depEdge packages u v →
      (out.map (·.name)).indexOf u < (out.map (·.name)).indexOf v := by
    rintro u v ⟨p, hp, rfl, hu⟩
    obtain ⟨i, hgi⟩ := List.mem_iff_get.mp (hcover p hp)
    have hMlen : i.1 < (out.map (·.name)).length := by
      rw [List.length_map]; exact i.2
    have hMget : (out.map (·.name))[i.1] = p.name := by
      rw [List.getElem_map]
      show (out.get ⟨i.1, i.2⟩).name = p.name
      rw [show (⟨i.1, i.2⟩ : Fin out.length) = i from rfl, hgi]
    have hidxv : (out.map (·.name)).indexOf p.name = i.1 := by
      have := List.indexOf_getElem hnodup i.1 hMlen
      rwa [hMget] at this
    have hu' : u ∈ (out.map (·.name)).take i.1 := by
      rw [← List.map_take]
      refine hsound i.1 i.2 u ?_ 
      rw [show (⟨i.1, i.2⟩ : Fin out.length) = i from rfl, hgi]
      exact hu
    have hidxu : (out.map (·.name)).indexOf u < i.1 := by
      have hsplit : (out.map (·.name)) =
          (out.map (·.name)).take i.1 ++ (out.map (·.name)).drop i.1 :=
        (List.take_append_drop _ _).symm
      have happ : (((out.map (·.name)).take i.1) ++
          ((out.map (·.name)).drop i.1)).indexOf u =
            ((out.map (·.name)).take i.1).indexOf u :=
        List.indexOf_append_of_mem hu'
      rw [← hsplit] at happ
      rw [happ]
      calc ((out.map (·.name)).take i.1).indexOf u
          < ((out.map (·.name)).take i.1).length := List.indexOf_lt_length.mpr hu'
        _ ≤ i.1 := by rw [List.length_take]; omega
    omega
  have hmono : ∀ a b, Relation.TransGen (depEdge packages) a b →
      (out.map (·.name)).indexOf a < (out.map (·.name)).indexOf b := by
    intro a b h
    induction h with
    | single h => exact hkey _ _ h
    | tail _ h ih => exact ih.trans (hkey _ _ h)
  exact absurd (hmono x x hx) (lt_irrefl _)

/-- If the loop ends with packages unemitted, every unemitted package has an
unemitted in-set dependency, which forces a cycle. -/
theorem cycle_of_incomplete (packages out : List PackageInfo)
    (indegF : String → Nat)
    (hnames : (namesOf packages).Nodup)
    (inv : KahnInv packages [] indegF out)
    (hlen : out.length ≠ packages.length) :
    hasCycle packages := by
  have hRne : ((namesOf packages).filter
      fun n => decide (¬ n ∈ out.map (·.name))) ≠ [] := by
    intro hnil
    have hsubset : namesOf packages ⊆ out.map (·.name) := by
      intro n hn
      by_contra hmem
      have : n ∈ ((namesOf packages).filter
          fun n => decide (¬ n ∈ out.map (·.name))) :=
        List.mem_filter.mpr ⟨hn, by simpa using hmem⟩
      rw [hnil] at this
      simp at this
    have h1 : (namesOf packages).length ≤ (out.map (·.name)).length :=
      (hnames.subperm hsubset).length_le
    have h2 : (out.map (·.name)) ⊆ namesOf packages := by
      intro x hx
      obtain ⟨r, hr, rfl⟩ := List.mem_map.mp hx
      exact List.mem_map_of_mem _ (inv.result_sub r hr)
    have h3 : (out.map (·.name)).length ≤ (namesOf packages).length :=
      (inv.emitted_nodup.subperm h2).length_le
    have : out.length = packages.length := by
      have e1 : (out.map (·.name)).length = out.length := List.length_map _ _
      have e2 : (namesOf packages).length = packages.length := List.length_map _ _
      omega
    exact hlen this
  have hsucc : ∀ x ∈ ((namesOf packages).filter
      fun n => decide (¬ n ∈ out.map (·.name))),
      ∃ y ∈ ((namesOf packages).filter
        fun n => decide (¬ n ∈ out.map (·.name))), depEdge packages y x := by
    intro x hx
    have hx1 : x ∈ namesOf packages := List.mem_of_mem_filter hx
    have hx2 : ¬ x ∈ out.map (·.name) := by
      have := List.of_mem_filter hx
      simpa using this
    obtain ⟨px, hpx, hpxname⟩ := List.mem_map.mp hx1
    have hqi := (inv.queue_iff px hpx)
    have hnq : ¬ px.name ∈ ([] : List String) := by simp
    have hfil : ((inSetDeps packages px).filter
        fun d => decide (¬ d ∈ out.map (·.name))) ≠ [] := by
      intro hnil
      exact hnq (hqi.mpr ⟨by rwa [hpxname], hnil⟩)
    obtain ⟨d, hd⟩ := List.exists_mem_of_ne_nil _ hfil
    have hd1 : d ∈ inSetDeps packages px := List.mem_of_mem_filter hd
    have hd2 : ¬ d ∈ out.map (·.name) := by
      have := List.of_mem_filter hd
      simpa using this
    have hdnames : d ∈ namesOf packages := (mem_inSetDeps.mp hd1).2
    refine ⟨d, List.mem_filter.mpr ⟨hdnames, by simpa using hd2⟩, ?_⟩
    exact ⟨px, hpx, hpxname, hd1⟩
  obtain ⟨z, hz⟩ := cycle_of_forced_succ _ (fun a b => depEdge packages b a)
    hRne hsucc
  exact ⟨z, hz.swap⟩

/-- C3: under the map-faithfulness hypotheses (distinct package names,
duplicate-free dependency keys), `topological_sort_packages` either returns
an ordering of all the packages in which every package appears after each
of its in-set dependencies, or fails — exactly when the restricted
dependency relation has a directed cycle — with a circular-dependency
error listing the names not emitted by Kahn's algorithm. -/
theorem topological_sort_packages_correct (packages : List PackageInfo)
    (hnames : (namesOf packages).Nodup)
    (hdeps : ∀ p ∈ packages, (depsKeys p).Nodup) :
    (∀ order, topological_sort_packages packages = .ok order →
      order.Perm packages ∧
      ∀ i (h : i < order.length),
        ∀ d ∈ inSetDeps packages (order.get ⟨i, h⟩),
          d ∈ (order.take i).map (·.name)) ∧
    ((∃ e, topological_sort_packages packages = .error e) ↔ hasCycle packages) ∧
    (∀ rem, topological_sort_packages packages = .error (.circularDependency rem) →
      rem = (namesOf packages).filter fun n =>
        decide (¬ n ∈ (kahnLoop packages packages.length (initQueue packages)
          (initIndeg packages) []).map (·.name))) := by
  obtain ⟨indegF, invF⟩ := kahnLoop_run packages hnames hdeps packages.length
    (initQueue packages) (initIndeg packages) [] (kahnInv_init packages hnames)
    (by simp)
  by_cases hlen : (kahnLoop packages packages.length (initQueue packages)
      (initIndeg packages) []).length = packages.length
  · -- success
    have hok : topological_sort_packages packages =
        .ok (kahnLoop packages packages.length (initQueue packages)
          (initIndeg packages) []) := by
      unfold topological_sort_packages
      rw [if_pos hlen]
    have houtnodup : (kahnLoop packages packages.length (initQueue packages)
        (initIndeg packages) []).Nodup := invF.emitted_nodup.of_map
    have hsubp : List.Subperm (kahnLoop packages packages.length (initQueue packages)
        (initIndeg packages) []) packages :=
      houtnodup.subperm fun r hr => invF.result_sub r hr
    have hperm : (kahnLoop packages packages.length (initQueue packages)
        (initIndeg packages) []).Perm packages :=
      hsubp.perm_of_length_le (le_of_eq hlen.symm)
    have hnocyc : ¬ hasCycle packages :=
      no_cycle_of_complete packages _ invF.emitted_nodup
        (fun p hp => hperm.symm.subset hp) invF.sound
    refine ⟨?_, ?_, ?_⟩
    · intro order horder
      rw [hok] at horder
      injection horder with he
      subst he
      exact ⟨hperm, invF.sound⟩
    · constructor
      · rintro ⟨e, he⟩
        rw [hok] at he
        cases he
      · intro hc
        exact absurd hc hnocyc
    · intro rem hrem
      rw [hok] at hrem
      cases hrem
  · -- failure
    have herr : topological_sort_packages packages =
        .error (.circularDependency ((namesOf packages).filter fun n =>
          decide (¬ n ∈ (kahnLoop packages packages.length (initQueue packages)
            (initIndeg packages) []).map (·.name)))) := by
      unfold topological_sort_packages
      rw [if_neg hlen]
    have hcyc : hasCycle packages :=
      cycle_of_incomplete packages _ indegF hnames invF hlen
    refine ⟨?_, ?_, ?_⟩
    · intro order horder
      rw [herr] at horder
      cases horder
    · exact ⟨fun _ => hcyc, fun _ => ⟨_, herr⟩⟩
    · intro rem hrem
      rw [herr] at hrem
      injection hrem with he
      injection he with he2
      exact he2.symm

/-- C3 witness: sorting the concrete two-package project puts `lib` before
its dependant `main` and covers both packages. -/
theorem topological_sort_packages_correct_witness :
    topological_sort_packages [pkgLib, pkgMain] = .ok [pkgLib, pkgMain] ∧
    ([pkgLib, pkgMain] : List PackageInfo).Perm [pkgLib, pkgMain] := by
  have h := topological_sort_packages_correct [pkgLib, pkgMain]
    (by decide) (by decide)
  have hok : topological_sort_packages [pkgLib, pkgMain] = .ok [pkgLib, pkgMain] := by
    rfl
  exact ⟨hok, (h.1 [pkgLib, pkgMain] hok).1⟩
